import Mathlib

/-!
Verification of the crydotxyz/subdomain monitoring loop.

This file gives a shallow embedding of the pure logic of the repository's
two monitor scripts (`subdomain2.py` and `subdomain_monitor.py`) and proves
or refutes the frozen specification claims about them.

Python strings are modelled as Lean `String`s; the handful of `str` methods
the code uses (`strip`, `lower`, `replace`, `in`, `endswith`, `split`) are
re-implemented below over `String.data` so that everything kernel-evaluates.
The SQLite table is modelled as a list of rows; `UNIQUE(domain, subdomain)`
violations surface as an `Except` error exactly where `sqlite3` would raise
`IntegrityError`.  Python `set` iteration order and `dict` insertion order
are unspecified /insertion-ordered respectively, so sets handed to `sorted`
are modelled as an arbitrary duplicate-free list (the iteration order) and
dicts as association lists in insertion order.
-/

namespace Subdomain

/-- The whitespace characters removed by Python's `str.strip()`
(space, tab, newline, carriage return, vertical tab, form feed). -/
def pySpace (c : Char) : Bool :=
  c = ' ' || c = '\t' || c = '\n' || c = '\r' || c = '\x0b' || c = '\x0c'

/-- `str.strip()` on the underlying character list: drop whitespace from
both ends. -/
def trimChars (l : List Char) : List Char :=
  ((l.dropWhile pySpace).reverse.dropWhile pySpace).reverse

/-- ASCII lowercasing of one character, as `str.lower()` does on the
alphabet the monitor deals with. -/
def lowerChar (c : Char) : Char :=
  if 'A' ≤ c && c ≤ 'Z' then Char.ofNat (c.toNat + 32) else c

/-- `str.replace('*.', '')`: remove every (left-to-right, non-overlapping)
occurrence of the two-character pattern `*.`. -/
def stripWildcards : List Char → List Char
  | '*' :: '.' :: cs => stripWildcards cs
  | c :: cs => c :: stripWildcards cs
  | [] => []

/-- Substring test (`pat in hay` for Python strings). -/
def hasSubstr (pat : List Char) : List Char → Bool
  | [] => pat.isEmpty
  | c :: cs => pat.isPrefixOf (c :: cs) || hasSubstr pat cs

/-- `str.split('\n')`: split at every newline, keeping empty pieces. -/
def splitOnNl : List Char → List (List Char)
  | [] => [[]]
  | c :: cs =>
    match splitOnNl cs with
    | [] => [[]]
    | p :: ps => if c = '\n' then [] :: p :: ps else (c :: p) :: ps

/-- `raw.strip()` at `String` level. -/
def pyStrip (s : String) : String := ⟨trimChars s.data⟩

/-- `raw.lower()` at `String` level. -/
def pyLower (s : String) : String := ⟨s.data.map lowerChar⟩

/-- `s.replace('*.', '')` at `String` level. -/
def stripWild (s : String) : String := ⟨stripWildcards s.data⟩

/-- `pat in hay` at `String` level. -/
def pyContains (hay pat : String) : Bool := hasSubstr pat.data hay.data

/-- `s.endswith(suf)` at `String` level. -/
def pyEndsWith (s suf : String) : Bool := suf.data.isSuffixOf s.data

/-- `s.split('\n')` at `String` level. -/
def pySplitNl (s : String) : List String := (splitOnNl s.data).map String.mk

/-- Code-point comparison of two characters, as Python compares the
characters of a `str`. -/
def charLt (c d : Char) : Bool := Nat.blt c.toNat d.toNat

/-- Lexicographic `<` on character lists: Python's `<` on `str`. -/
def lexLt : List Char → List Char → Bool
  | [], [] => false
  | [], _ :: _ => true
  | _ :: _, [] => false
  | a :: as, b :: bs =>
    if charLt a b then true
    else if charLt b a then false
    else lexLt as bs

/-- Python's `a < b` on strings. -/
def pyStrLt (a b : String) : Bool := lexLt a.data b.data

/-- Python's `a <= b` on strings (used to model `sorted`). -/
def pyStrLe (a b : String) : Bool := !pyStrLt b a

/-!
### Hostname Source Client — `SubdomainMonitor.get_subdomains_from_crtsh`

`subdomain2.py` lines 102–129.  One candidate name from a `name_value`
line is processed as

    subdomain = subdomain.strip().lower()
    if subdomain and domain in subdomain:
        subdomain = subdomain.replace('*.', '')
        if subdomain.endswith('.' + domain):
            ... accept ...
-/

/-- Normalize/filter one raw candidate name against `domain`, following the
source line by line; `some h` means the candidate is accepted as hostname
`h`, `none` means it is discarded. -/
def cleanCandidate (domain raw : String) : Option String :=
  let s := pyLower (pyStrip raw)
  if s ≠ "" && pyContains s domain then
    let s2 := stripWild s
    if pyEndsWith s2 ("." ++ domain) then some s2 else none
  else none

/-- The accepted hostnames of one `name_value` field, in line order. -/
def acceptedNames (domain nv : String) : List String :=
  (pySplitNl nv).filterMap (cleanCandidate domain)

/-- One step of the crt.sh dictionary build: Python's

    if subdomain not in subdomains or (entry_time and entry_time < subdomains[subdomain]):
        subdomains[subdomain] = entry_time

over an insertion-ordered association list. -/
def updateOne (acc : List (String × String)) (h t : String) : List (String × String) :=
  match acc.lookup h with
  | none => acc ++ [(h, t)]
  | some cur =>
    if t ≠ "" ∧ pyStrLt t cur = true then
      acc.map (fun q => if q.1 = h then (h, t) else q)
    else acc

/-- Flatten the fetched log entries (each a `name_value` with its
`entry_timestamp or not_before or ''` time) into accepted
(hostname, time) pairs, in the order the nested loops visit them. -/
def entryPairs (domain : String) : List (String × String) → List (String × String)
  | [] => []
  | (nv, t) :: rest => ((acceptedNames domain nv).map fun h => (h, t)) ++ entryPairs domain rest

/-- The dictionary `subdomain -> release_date` built by
`get_subdomains_from_crtsh` from a successfully parsed payload. -/
def processEntries (domain : String) (entries : List (String × String)) :
    List (String × String) :=
  (entryPairs domain entries).foldl (fun acc p => updateOne acc p.1 p.2) []

/-- The failure modes of the fetch that the source catches:
`requests.exceptions.RequestException` (network error and, via
`raise_for_status`, a non-success status) and `json.JSONDecodeError`. -/
inductive FetchErr
  | networkErr
  | badStatus
  | parseErr
deriving DecidableEq, Repr

/-- `get_subdomains_from_crtsh` as seen by its caller: a successful
response body is processed into the hostname dictionary, every caught
error is converted into the empty dictionary (and logged). -/
def fetchResult (domain : String) (resp : Except FetchErr (List (String × String))) :
    List (String × String) :=
  match resp with
  | .ok entries => processEntries domain entries
  | .error _ => []

/-- The keys of the fetched dictionary, i.e. Python's
`set(crtsh_subdomains.keys())`. -/
def keysOf (l : List (String × String)) : Finset String :=
  (l.map Prod.fst).toFinset

/-!
### Domain Monitor — `SubdomainMonitor.monitor_domain`

`subdomain2.py` lines 226–242.  The per-domain known set is the set of
`subdomain` values stored for that domain; one cycle computes
`new_subdomains = current_subdomains - known_subdomains`, inserts the new
ones (`save_new_subdomains`) and then sends the alerts with exactly
`new_subdomains`; nothing is ever deleted from the store.
-/

structure CycleOut where
  /-- `current_subdomains`, the set fetched this cycle. -/
  current : Finset String
  /-- `new_subdomains = current_subdomains - known_subdomains`. -/
  newSubs : Finset String
  /-- the known set after `save_new_subdomains` ran. -/
  store : Finset String
  /-- the hostnames handed to both alert senders (`∅` means the alert
  branch was skipped). -/
  alerted : Finset String
deriving DecidableEq

/-- One successful fetch→diff→persist→notify cycle of `monitor_domain`. -/
def runCycle (fetched known : Finset String) : CycleOut :=
  let nw := fetched \ known
  { current := fetched, newSubs := nw, store := known ∪ nw, alerted := nw }

/-- One cycle carrying a delivery outcome: `save_new_subdomains` commits
before either alert is attempted, so the resulting known set does not
depend on `deliveryFails`; the returned second component is the set of
hostnames for which a notification was attempted this cycle. -/
def runCycleD (fetched known : Finset String) (deliveryFails : Bool) :
    Finset String × Finset String :=
  let nw := fetched \ known
  let _ := deliveryFails
  (known ∪ nw, nw)

/-- Iterate `monitor_domain` cycles over a list of (fetched set, delivery
fails?) pairs, returning the per-cycle attempted-notification sets. -/
def runCycles (known : Finset String) : List (Finset String × Bool) → List (Finset String)
  | [] => []
  | (s, df) :: rest =>
    let r := runCycleD s known df
    r.2 :: runCycles r.1 rest

/-- The exceptions that can escape an individual step of
`monitor_domain`'s body and reach its `except Exception` handler. -/
inductive PyErr
  | fetchExc
  | dbReadExc
  | dbWriteExc
  | notifyExc
deriving DecidableEq, Repr

/-- The body of `monitor_domain` (the code inside its `try`), with an
injected failure point.  The error payload carries the committed known
set at the moment the exception escapes: a failed `save_new_subdomains`
never commits (the connection is closed without `commit`), while an alert
exception happens after the save committed.  On success the result is
(known set after the cycle, set handed to the alert senders). -/
def monitorBody (inject : Option PyErr) (fetched known : Finset String) :
    Except (PyErr × Finset String) (Finset String × Finset String) :=
  match inject with
  | some .fetchExc => .error (.fetchExc, known)
  | some .dbReadExc => .error (.dbReadExc, known)
  | some .dbWriteExc =>
    let nw := fetched \ known
    if nw = ∅ then .ok (known, ∅) else .error (.dbWriteExc, known)
  | some .notifyExc =>
    let nw := fetched \ known
    if nw = ∅ then .ok (known, ∅) else .error (.notifyExc, known ∪ nw)
  | none =>
    let nw := fetched \ known
    .ok (known ∪ nw, nw)

/-- `monitor_domain` itself: the body wrapped in
`except Exception as e: logging.error(...)` — every error is caught, the
cycle ends normally having reported no new hostnames. -/
def monitor_domain (inject : Option PyErr) (fetched known : Finset String) :
    Except PyErr (Finset String × Finset String) :=
  match monitorBody inject fetched known with
  | .ok r => .ok r
  | .error (_, st) => .ok (st, ∅)

/-!
### Subdomain Store rows — `SubdomainMonitor.save_new_subdomains`

`subdomain2.py` lines 140–163.  A table row; `first_seen`/`last_seen`
default to `CURRENT_TIMESTAMP`, modelled as an abstract instant `Nat`.
-/

structure Row where
  domain : String
  subdomain : String
  firstSeen : Nat
  lastSeen : Nat
  releaseDate : Option String
deriving DecidableEq, Repr

/-- Does the row hit the `UNIQUE(domain, subdomain)` key (d, s)? -/
def matchesKey (d s : String) (r : Row) : Bool :=
  r.domain = d && r.subdomain = s

/-- `INSERT INTO subdomains (domain, subdomain, release_date) VALUES (?,?,?)`:
appends a row, or raises `sqlite3.IntegrityError` when the
`UNIQUE(domain, subdomain)` constraint is violated. -/
def insertRow (tbl : List Row) (r : Row) : Except Unit (List Row) :=
  if tbl.any (matchesKey r.domain r.subdomain) then .error ()
  else .ok (tbl ++ [r])

/-- `UPDATE subdomains SET last_seen = CURRENT_TIMESTAMP WHERE domain = ?
AND subdomain = ?`. -/
def touchRow (tbl : List Row) (d s : String) (now : Nat) : List Row :=
  tbl.map fun r => if matchesKey d s r then { r with lastSeen := now } else r

/-- The per-hostname body of `save_new_subdomains`: try the insert, and on
`IntegrityError` fall back to updating `last_seen`. -/
def record_new (tbl : List Row) (d s : String) (rd : Option String) (now : Nat) :
    List Row :=
  match insertRow tbl ⟨d, s, now, now, rd⟩ with
  | .ok t => t
  | .error _ => touchRow tbl d s now

/-- The (domain, subdomain) keys of a table. -/
def rowKeys (tbl : List Row) : List (String × String) :=
  tbl.map fun r => (r.domain, r.subdomain)

/-!
### Notifier — `SubdomainMonitor.send_telegram_alert` / `send_discord_alert`

`subdomain2.py` lines 165–213.  Both senders render the numbered hostname
list in the order

    sorted(new_subdomains, key=lambda s: crtsh_subdomains.get(s, '9999-99-99 99:99:99'))

`sorted` is a stable sort on the set's (unspecified) iteration order,
which we take as an input list; `crtsh_subdomains.get` is lookup in the
date-hint association list with the sentinel default.
-/

/-- `crtsh_subdomains.get(s, '9999-99-99 99:99:99')`. -/
def dateKey (hints : List (String × String)) (s : String) : String :=
  match hints.lookup s with
  | some d => d
  | none => "9999-99-99 99:99:99"

/-- The order in which both alert messages list the hostnames: a stable
sort of the set's iteration order by date key (Python's `sorted` is
stable; `List.insertionSort` is stable, hence renders the same list). -/
def alertOrder (hints : List (String × String)) (iterOrder : List String) :
    List String :=
  iterOrder.insertionSort fun a b => pyStrLe (dateKey hints a) (dateKey hints b) = true

/-!
### Store initialization — `init_database`

`subdomain_monitor.py` lines 53–109 (domain-column migration) and
`subdomain2.py` lines 74–100 (release_date-column migration).
-/

/-- A row of the multi-domain schema without the `release_date` column
(the schema `subdomain_monitor.py` creates). -/
structure MRow where
  domain : String
  subdomain : String
  firstSeen : Nat
  lastSeen : Nat
deriving DecidableEq, Repr

/-- A row of the legacy single-domain schema (no `domain` column). -/
structure OldRow where
  subdomain : String
  firstSeen : Nat
  lastSeen : Nat
deriving DecidableEq, Repr

/-- The possible shapes of the SQLite file when `init_database` runs
(`subdomain_monitor.py` variant). -/
inductive MDb
  | noTable
  | oldSchema (rows : List OldRow)
  | newSchema (rows : List MRow)
deriving DecidableEq, Repr

/-- The `sqlite3` errors `init_database` can raise. -/
inductive SqlErr
  | operationalErr
  | integrityErr
deriving DecidableEq, Repr

/-- One `INSERT INTO subdomains (domain, subdomain, first_seen, last_seen)`
of the migration loop, against the freshly created table. -/
def minsertRow (tbl : List MRow) (r : MRow) : Except SqlErr (List MRow) :=
  if tbl.any (fun q => q.domain = r.domain && q.subdomain = r.subdomain) then
    .error .integrityErr
  else .ok (tbl ++ [r])

/-- `SubdomainMonitor.init_database` of `subdomain_monitor.py`:
`PRAGMA table_info(subdomains)` lists the columns (none at all when the
table is missing); when `domain` is absent the migration branch first
runs `SELECT subdomain, first_seen, last_seen FROM subdomains` — an
`sqlite3.OperationalError` if there is no table — then drops and
recreates the table and re-inserts every old row under the first
configured domain (skipping the loop when the old data or the domain
list is empty); when `domain` is present it only runs
`CREATE TABLE IF NOT EXISTS`, a no-op on an existing table. -/
def init_database (domains : List String) : MDb → Except SqlErr MDb
  | .noTable => .error .operationalErr
  | .oldSchema rows =>
    match rows, domains with
    | _ :: _, d0 :: _ =>
      (rows.foldlM (fun acc r => minsertRow acc ⟨d0, r.subdomain, r.firstSeen, r.lastSeen⟩)
        []).map MDb.newSchema
    | _, _ => .ok (.newSchema [])
  | .newSchema rows => .ok (.newSchema rows)

/-- The possible shapes of the SQLite file when `subdomain2.py`'s
`init_database` runs: no table yet, a table without the `release_date`
column, or the current schema. -/
inductive Db2
  | noTable
  | noRelCol (rows : List MRow)
  | withRelCol (rows : List Row)
deriving DecidableEq, Repr

/-- `SubdomainMonitor.init_database` of `subdomain2.py`: when
`release_date` is missing and the table exists, `ALTER TABLE ... ADD
COLUMN release_date TEXT` keeps every row and fills the new column with
NULL; then `CREATE TABLE IF NOT EXISTS` creates the full table only when
none exists. -/
def init_database2 : Db2 → Db2
  | .noTable => .withRelCol []
  | .noRelCol rows =>
    .withRelCol (rows.map fun r => ⟨r.domain, r.subdomain, r.firstSeen, r.lastSeen, none⟩)
  | .withRelCol rows => .withRelCol rows

/-!
### Spec-side definitions

Used only to compare the code's behaviour with the claims' wording.
-/

/-- Modelled from the spec's words for claim C6: trim, lowercase, strip a
single LEADING wildcard label `*.`, and accept exactly when the result is
a strict subdomain (ends with `.` + domain). -/
def specNormalize (domain raw : String) : Option String :=
  let s := pyLower (pyStrip raw)
  let s2 := if ("*.").data.isPrefixOf s.data then (⟨s.data.drop 2⟩ : String) else s
  if pyEndsWith s2 ("." ++ domain) then some s2 else none

/-- The amended normalization for claim C6, phrased as one flat condition:
trim, lowercase, remove EVERY occurrence of `*.`, and accept exactly when
the trimmed lowercased candidate is non-empty, contains the domain as a
substring, and the wildcard-free result ends with `.` + domain. -/
def specNormalizeAll (domain raw : String) : Option String :=
  let s := pyLower (pyStrip raw)
  let s2 := stripWild s
  if s ≠ "" ∧ pyContains s domain = true ∧ pyEndsWith s2 ("." ++ domain) = true then some s2
  else none

/-- The timestamps attached to the occurrences of normalized hostname `h`
among the fetched entries, in the order the nested loops visit them. -/
def timesOf (domain h : String) (entries : List (String × String)) : List String :=
  (entryPairs domain entries).filterMap fun p => if p.1 = h then some p.2 else none

/-- The value recurrence realized by `updateOne` at one fixed key: fold
the key's timestamps over the stored value. -/
def runMin (v : Option String) : List String → Option String
  | [] => v
  | t :: ts =>
    runMin (some (match v with
      | none => t
      | some cur => if t ≠ "" ∧ pyStrLt t cur = true then t else cur)) ts

example : cleanCandidate "example.com" "*.Foo.Example.com" = some "foo.example.com" := by decide
example : cleanCandidate "example.com" "example.com" = none := by decide
example : cleanCandidate "example.com" "*.*.example.com" = none := by decide
example : processEntries "example.com"
    [("h.example.com", ""), ("h.example.com", "2024-01-01")]
    = [("h.example.com", "")] := by decide

/-!
## Claim theorems
-/

/-- Claim C7: when the fetch fails with a network error, a non-success
status, or a malformed payload, `get_subdomains_from_crtsh` returns the
empty mapping rather than raising, and the cycle then behaves exactly as
a fetch that found zero hostnames: the store is unchanged and no
notification is attempted. -/
theorem C7_fetch_failure_is_empty_cycle :
    ∀ (e : FetchErr) (domain : String) (known : Finset String),
      fetchResult domain (.error e) = [] ∧
      keysOf (fetchResult domain (.error e)) = ∅ ∧
      (runCycle (keysOf (fetchResult domain (.error e))) known).store = known ∧
      (runCycle (keysOf (fetchResult domain (.error e))) known).alerted = ∅ := by
  intro e domain known
  refine ⟨rfl, rfl, ?_, ?_⟩ <;> simp [runCycle, keysOf, fetchResult]

/-- Claim C2: any error raised inside the fetch, diff, persist or notify
step of one `monitor_domain` cycle is caught by its outer handler: the
call always returns normally (`Except.ok`), and in the error branch the
cycle ends having reported no new hostnames. -/
theorem C2_monitor_domain_exception_safe :
    ∀ (inject : Option PyErr) (fetched known : Finset String),
      (∃ r, monitor_domain inject fetched known = .ok r) ∧
      (∀ e, inject = some e →
        ∃ st, monitor_domain inject fetched known = .ok (st, ∅)) := by
  intro inject fetched known
  have h2 : ∀ e, inject = some e →
      ∃ st, monitor_domain inject fetched known = .ok (st, ∅) := by
    rintro e rfl
    cases e with
    | fetchExc => exact ⟨known, rfl⟩
    | dbReadExc => exact ⟨known, rfl⟩
    | dbWriteExc =>
      by_cases hnw : fetched \ known = ∅
      · exact ⟨known, by simp [monitor_domain, monitorBody, hnw]⟩
      · exact ⟨known, by simp [monitor_domain, monitorBody, hnw]⟩
    | notifyExc =>
      by_cases hnw : fetched \ known = ∅
      · exact ⟨known, by simp [monitor_domain, monitorBody, hnw]⟩
      · exact ⟨known ∪ (fetched \ known), by simp [monitor_domain, monitorBody, hnw]⟩
  refine ⟨?_, h2⟩
  cases inject with
  | none => exact ⟨_, rfl⟩
  | some e =>
    obtain ⟨st, hst⟩ := h2 e rfl
    exact ⟨_, hst⟩

/-- Witness for C2 at a concrete fetch failure. -/
theorem C2_monitor_domain_exception_safe_witness :
    ∃ st, monitor_domain (some .fetchExc) ({"a.example.com"} : Finset String) ∅
      = .ok (st, ∅) :=
  (C2_monitor_domain_exception_safe (some .fetchExc) {"a.example.com"} ∅).2 .fetchExc rfl

/-- Claim C10: in `subdomain_monitor.py`, initializing against a fresh
database (no `subdomains` table) takes the migration branch — the column
probe reports no columns, hence no `domain` column — and the `SELECT`
against the missing table raises an operational error instead of creating
the table; a successful initialization requires the table to exist. -/
theorem C10_fresh_db_init_fails :
    ∀ (domains : List String),
      init_database domains .noTable = .error .operationalErr ∧
      ∀ (db db2 : MDb), init_database domains db = .ok db2 → db ≠ .noTable := by
  intro domains
  refine ⟨rfl, ?_⟩
  intro db db2 hok
  intro hcontra
  subst hcontra
  simp [init_database] at hok

/-- Witness for C10: a database that does have the migrated table
initializes successfully, so the success hypothesis is satisfiable. -/
theorem C10_fresh_db_init_fails_witness :
    init_database ["example.com"] MDb.noTable = .error .operationalErr ∧
    MDb.newSchema ([] : List MRow) ≠ MDb.noTable :=
  ⟨(C10_fresh_db_init_fails ["example.com"]).1,
   (C10_fresh_db_init_fails ["example.com"]).2 (.newSchema []) (.newSchema []) rfl⟩

/-- Counterexample to claim C1 as stated: with a hostname already stored
before the first cycle (here `x.example.com`), fetched sets S1 = ∅ and
S2 = {x.example.com} satisfy S1 ⊆ S2, yet the second cycle's new set is
∅, not S2 \ S1. -/
theorem C1_counterexample :
    (∅ : Finset String) ⊆ {"x.example.com"} ∧
    (runCycle {"x.example.com"}
        (runCycle (∅ : Finset String) ({"x.example.com"} : Finset String)).store).newSubs
      ≠ ({"x.example.com"} : Finset String) \ (∅ : Finset String) := by
  constructor
  · exact Finset.empty_subset _
  · decide

/-- Claim C1, amended: each cycle's new set is exactly fetched minus
known, a cycle never removes a stored hostname, and across two
consecutive cycles with S1 ⊆ S2 the second cycle persists and notifies
exactly S2 \ S1 — provided no hostname of S2 \ S1 was already stored
before the first cycle (e.g. a fresh store) — and in any case re-notifies
no hostname of S1. -/
theorem C1_cycle_diff :
    ∀ (S1 S2 K0 : Finset String),
      (runCycle S1 K0).newSubs = S1 \ K0 ∧
      K0 ⊆ (runCycle S1 K0).store ∧
      (∀ h ∈ S1, h ∉ (runCycle S2 (runCycle S1 K0).store).alerted) ∧
      (S1 ⊆ S2 → Disjoint K0 (S2 \ S1) →
        (runCycle S2 (runCycle S1 K0).store).newSubs = S2 \ S1 ∧
        (runCycle S2 (runCycle S1 K0).store).alerted = S2 \ S1 ∧
        (runCycle S2 (runCycle S1 K0).store).store
          = (runCycle S1 K0).store ∪ (S2 \ S1)) := by
  intro S1 S2 K0
  refine ⟨rfl, ?_, ?_, ?_⟩
  · intro x hx
    simp [runCycle, Finset.mem_union]
    exact Or.inl hx
  · intro h hS1
    simp only [runCycle]
    rw [Finset.mem_sdiff]
    rintro ⟨_, hn⟩
    apply hn
    rw [Finset.mem_union]
    by_cases hK : h ∈ K0
    · exact Or.inl hK
    · exact Or.inr (Finset.mem_sdiff.mpr ⟨hS1, hK⟩)
  · intro hsub hdisj
    have hd : ∀ x ∈ K0, x ∈ S2 → x ∈ S1 := by
      intro x hK hS2
      by_contra hn
      exact (Finset.disjoint_left.mp hdisj hK) (Finset.mem_sdiff.mpr ⟨hS2, hn⟩)
    have hnew : (runCycle S2 (runCycle S1 K0).store).newSubs = S2 \ S1 := by
      ext x
      simp only [runCycle, Finset.mem_sdiff, Finset.mem_union]
      constructor
      · rintro ⟨hx2, hxn⟩
        refine ⟨hx2, fun hx1 => ?_⟩
        by_cases hK : x ∈ K0
        · exact hxn (Or.inl hK)
        · exact hxn (Or.inr ⟨hx1, hK⟩)
      · rintro ⟨hx2, hx1⟩
        refine ⟨hx2, ?_⟩
        rintro (hK | ⟨hS1', _⟩)
        · exact hx1 (hd x hK hx2)
        · exact hx1 hS1'
    exact ⟨hnew, hnew, by simp [runCycle]⟩

/-- Witness for C1 (amended) on a fresh store. -/
theorem C1_cycle_diff_witness :
    ({"api.example.com"} : Finset String)
      ⊆ {"api.example.com", "new.example.com"} ∧
    Disjoint (∅ : Finset String)
      (({"api.example.com", "new.example.com"} : Finset String) \ {"api.example.com"}) ∧
    (runCycle {"api.example.com", "new.example.com"}
        (runCycle ({"api.example.com"} : Finset String) ∅).store).alerted
      = ({"api.example.com", "new.example.com"} : Finset String) \ {"api.example.com"} :=
  ⟨by decide, Finset.disjoint_empty_left _,
   ((C1_cycle_diff {"api.example.com"} {"api.example.com", "new.example.com"} ∅).2.2.2
     (by decide) (Finset.disjoint_empty_left _)).2.1⟩

/-- Once a hostname is known, no later cycle attempts to notify it
again, whatever the fetches and delivery outcomes. -/
theorem runCycles_count_eq_zero (h : String) :
    ∀ (cycles : List (Finset String × Bool)) (known : Finset String),
      h ∈ known →
      (runCycles known cycles).countP (fun nw => decide (h ∈ nw)) = 0 := by
  intro cycles
  induction cycles with
  | nil => intro known _; rfl
  | cons c rest ih =>
    intro known hk
    obtain ⟨s, df⟩ := c
    have hnot : h ∉ s \ known := fun hmem => (Finset.mem_sdiff.mp hmem).2 hk
    simp only [runCycles, runCycleD, List.countP_cons]
    rw [ih (known ∪ s \ known) (Finset.mem_union_left _ hk)]
    simp [hnot]

/-- Across any sequence of cycles, a hostname is notified at most once. -/
theorem runCycles_count_le_one (h : String) :
    ∀ (cycles : List (Finset String × Bool)) (known : Finset String),
      (runCycles known cycles).countP (fun nw => decide (h ∈ nw)) ≤ 1 := by
  intro cycles
  induction cycles with
  | nil => intro known; simp [runCycles]
  | cons c rest ih =>
    intro known
    obtain ⟨s, df⟩ := c
    by_cases hmem : h ∈ s \ known
    · simp only [runCycles, runCycleD, List.countP_cons]
      rw [runCycles_count_eq_zero h rest (known ∪ s \ known)
        (Finset.mem_union_right _ hmem)]
      simp [hmem]
    · simp only [runCycles, runCycleD, List.countP_cons]
      have := ih (known ∪ s \ known)
      simp only [hmem, decide_eq_true_eq, if_neg]
      simpa [hmem] using this

/-- Claim C9: `save_new_subdomains` commits before any alert is
attempted, so the known set produced by a cycle does not depend on the
delivery outcome, and over any sequence of cycles — with any pattern of
delivery failures — each hostname is notified at most once. -/
theorem C9_persist_before_notify_at_most_once :
    ∀ (fetched known : Finset String) (df df2 : Bool)
      (start : Finset String) (cycles : List (Finset String × Bool)) (h : String),
      (runCycleD fetched known df).1 = (runCycleD fetched known df2).1 ∧
      (runCycleD fetched known df).1 = (runCycle fetched known).store ∧
      (runCycles start cycles).countP (fun nw => decide (h ∈ nw)) ≤ 1 := by
  intro fetched known df df2 start cycles h
  exact ⟨rfl, rfl, runCycles_count_le_one h cycles start⟩

/-- A row matches the key (d, s) exactly when its key pair is (d, s). -/
theorem matchesKey_eq_true {d s : String} {r : Row} :
    matchesKey d s r = true ↔ r.domain = d ∧ r.subdomain = s := by
  simp [matchesKey]

/-- The `UNIQUE(domain, subdomain)` probe of `insertRow` is exactly key
membership. -/
theorem any_matchesKey {tbl : List Row} {d s : String} :
    tbl.any (matchesKey d s) = true ↔ (d, s) ∈ rowKeys tbl := by
  simp only [List.any_eq_true, rowKeys, List.mem_map]
  constructor
  · rintro ⟨r, hr, hm⟩
    obtain ⟨h1, h2⟩ := matchesKey_eq_true.mp hm
    exact ⟨r, hr, by rw [h1, h2]⟩
  · rintro ⟨r, hr, hk⟩
    obtain ⟨h1, h2⟩ := Prod.mk.injEq .. ▸ hk
    exact ⟨r, hr, matchesKey_eq_true.mpr ⟨h1, h2⟩⟩

/-- No row matches an absent key. -/
theorem countP_matchesKey_of_not_mem {tbl : List Row} {d s : String}
    (h : (d, s) ∉ rowKeys tbl) : tbl.countP (matchesKey d s) = 0 := by
  rw [List.countP_eq_zero]
  intro r hr hm
  obtain ⟨h1, h2⟩ := matchesKey_eq_true.mp hm
  exact h (by exact List.mem_map.mpr ⟨r, hr, by rw [h1, h2]⟩)

/-- With unique keys, a present key matches exactly one row. -/
theorem countP_matchesKey_of_mem {d s : String} :
    ∀ {tbl : List Row}, (rowKeys tbl).Nodup → (d, s) ∈ rowKeys tbl →
      tbl.countP (matchesKey d s) = 1 := by
  intro tbl
  induction tbl with
  | nil => intro _ h; simp [rowKeys] at h
  | cons r rs ih =>
    intro hnd hmem
    have hnd' : (r.domain, r.subdomain) ∉ rowKeys rs ∧ (rowKeys rs).Nodup := by
      have : rowKeys (r :: rs) = (r.domain, r.subdomain) :: rowKeys rs := rfl
      rw [this, List.nodup_cons] at hnd
      exact hnd
    have hmem' : (d, s) = (r.domain, r.subdomain) ∨ (d, s) ∈ rowKeys rs :=
      List.mem_cons.mp hmem
    rw [List.countP_cons]
    rcases hmem' with hk | hk
    · obtain ⟨h1, h2⟩ := Prod.mk.injEq .. ▸ hk
      have hm : matchesKey d s r = true := matchesKey_eq_true.mpr ⟨h1.symm, h2.symm⟩
      rw [countP_matchesKey_of_not_mem (hk ▸ hnd'.1), hm]
      rfl
    · have hm : matchesKey d s r = false := by
        rw [Bool.eq_false_iff]
        intro hc
        obtain ⟨h1, h2⟩ := matchesKey_eq_true.mp hc
        exact hnd'.1 (h1 ▸ h2 ▸ hk)
      rw [ih hnd'.2 hk, hm]
      rfl

/-- Touching a row changes neither key of any row. -/
theorem rowKeys_touchRow {d s : String} {now : Nat} :
    ∀ {tbl : List Row}, rowKeys (touchRow tbl d s now) = rowKeys tbl := by
  intro tbl
  induction tbl with
  | nil => rfl
  | cons r rs ih =>
    have hstep : touchRow (r :: rs) d s now
        = (if matchesKey d s r = true then { r with lastSeen := now } else r)
            :: touchRow rs d s now := rfl
    by_cases hm : matchesKey d s r = true
    · rw [hstep, if_pos hm]
      show (r.domain, r.subdomain) :: rowKeys (touchRow rs d s now)
        = (r.domain, r.subdomain) :: rowKeys rs
      rw [ih]
    · rw [hstep, if_neg hm]
      show (r.domain, r.subdomain) :: rowKeys (touchRow rs d s now)
        = (r.domain, r.subdomain) :: rowKeys rs
      rw [ih]

/-- Touching preserves how many rows match any key. -/
theorem countP_touchRow {d s d2 s2 : String} {now : Nat} :
    ∀ {tbl : List Row},
      (touchRow tbl d s now).countP (matchesKey d2 s2) = tbl.countP (matchesKey d2 s2) := by
  intro tbl
  induction tbl with
  | nil => rfl
  | cons r rs ih =>
    have hstep : touchRow (r :: rs) d s now
        = (if matchesKey d s r = true then { r with lastSeen := now } else r)
            :: touchRow rs d s now := rfl
    rw [hstep, List.countP_cons, List.countP_cons, ih]
    by_cases hm : matchesKey d s r = true
    · rw [if_pos hm]
      have heq : matchesKey d2 s2 { r with lastSeen := now } = matchesKey d2 s2 r := by
        simp [matchesKey]
      rw [heq]
    · rw [if_neg hm]

/-- Touching changes nothing besides `last_seen`. -/
theorem touchRow_map_proj {d s : String} {now : Nat} :
    ∀ {tbl : List Row},
      (touchRow tbl d s now).map (fun r => (r.domain, r.subdomain, r.firstSeen, r.releaseDate))
        = tbl.map (fun r => (r.domain, r.subdomain, r.firstSeen, r.releaseDate)) := by
  intro tbl
  induction tbl with
  | nil => rfl
  | cons r rs ih =>
    have hstep : touchRow (r :: rs) d s now
        = (if matchesKey d s r = true then { r with lastSeen := now } else r)
            :: touchRow rs d s now := rfl
    by_cases hm : matchesKey d s r = true
    · rw [hstep, if_pos hm, List.map_cons, List.map_cons, ih]
    · rw [hstep, if_neg hm, List.map_cons, List.map_cons, ih]

/-- Claim C3: `save_new_subdomains`' per-hostname body inserts when the
pair is absent, and on conflict only updates `last_seen`; calling it
twice for one (domain, hostname) pair yields exactly one matching row,
never surfaces the duplicate-row error (the raw second insert would
fail, the fallback update is taken instead), preserves everything except
`last_seen`, and keeps the unique-pair invariant. -/
theorem C3_record_new_insert_or_touch :
    ∀ (tbl : List Row) (d s : String) (rd rd2 : Option String) (now now2 : Nat),
      (rowKeys tbl).Nodup →
      (record_new tbl d s rd now).countP (matchesKey d s) = 1 ∧
      (rowKeys (record_new tbl d s rd now)).Nodup ∧
      insertRow (record_new tbl d s rd now) ⟨d, s, now2, now2, rd2⟩ = .error () ∧
      record_new (record_new tbl d s rd now) d s rd2 now2
        = touchRow (record_new tbl d s rd now) d s now2 ∧
      (record_new (record_new tbl d s rd now) d s rd2 now2).countP (matchesKey d s) = 1 ∧
      (rowKeys (record_new (record_new tbl d s rd now) d s rd2 now2)).Nodup ∧
      (record_new (record_new tbl d s rd now) d s rd2 now2).map
          (fun r => (r.domain, r.subdomain, r.firstSeen, r.releaseDate))
        = (record_new tbl d s rd now).map
          (fun r => (r.domain, r.subdomain, r.firstSeen, r.releaseDate)) := by
  intro tbl d s rd rd2 now now2 hnd
  have key1 : ∀ t1 : List Row, (d, s) ∈ rowKeys t1 → (rowKeys t1).Nodup →
      t1.countP (matchesKey d s) = 1 ∧
      (rowKeys t1).Nodup ∧
      insertRow t1 ⟨d, s, now2, now2, rd2⟩ = .error () ∧
      record_new t1 d s rd2 now2 = touchRow t1 d s now2 ∧
      (record_new t1 d s rd2 now2).countP (matchesKey d s) = 1 ∧
      (rowKeys (record_new t1 d s rd2 now2)).Nodup ∧
      (record_new t1 d s rd2 now2).map
          (fun r => (r.domain, r.subdomain, r.firstSeen, r.releaseDate))
        = t1.map (fun r => (r.domain, r.subdomain, r.firstSeen, r.releaseDate)) := by
    intro t1 hk hnd1
    have hins : insertRow t1 ⟨d, s, now2, now2, rd2⟩ = .error () := by
      simp only [insertRow]
      rw [if_pos (any_matchesKey.mpr hk)]
    have hrec : record_new t1 d s rd2 now2 = touchRow t1 d s now2 := by
      simp only [record_new, hins]
    refine ⟨countP_matchesKey_of_mem hnd1 hk, hnd1, hins, hrec, ?_, ?_, ?_⟩
    · rw [hrec, countP_touchRow]
      exact countP_matchesKey_of_mem hnd1 hk
    · rw [hrec, rowKeys_touchRow]
      exact hnd1
    · rw [hrec, touchRow_map_proj]
  by_cases hmem : (d, s) ∈ rowKeys tbl
  · have hins1 : record_new tbl d s rd now = touchRow tbl d s now := by
      simp only [record_new, insertRow]
      rw [if_pos (any_matchesKey.mpr hmem)]
    have hk1 : (d, s) ∈ rowKeys (record_new tbl d s rd now) := by
      rw [hins1, rowKeys_touchRow]; exact hmem
    have hnd1 : (rowKeys (record_new tbl d s rd now)).Nodup := by
      rw [hins1, rowKeys_touchRow]; exact hnd
    exact key1 _ hk1 hnd1
  · have hins1 : record_new tbl d s rd now = tbl ++ [⟨d, s, now, now, rd⟩] := by
      simp only [record_new, insertRow]
      rw [if_neg (fun hc => hmem (any_matchesKey.mp hc))]
    have hkeys1 : rowKeys (record_new tbl d s rd now) = rowKeys tbl ++ [(d, s)] := by
      rw [hins1]
      simp [rowKeys]
    have hk1 : (d, s) ∈ rowKeys (record_new tbl d s rd now) := by
      rw [hkeys1]
      exact List.mem_append_right _ (List.mem_singleton.mpr rfl)
    have hnd1 : (rowKeys (record_new tbl d s rd now)).Nodup := by
      rw [hkeys1]
      refine List.Nodup.append hnd (List.nodup_singleton _) ?_
      intro k hk hks
      rw [List.mem_singleton] at hks
      exact hmem (hks ▸ hk)
    exact key1 _ hk1 hnd1

/-- Witness for C3 at a concrete table. -/
theorem C3_record_new_insert_or_touch_witness :
    (record_new [] "example.com" "a.example.com" none 0).countP
        (matchesKey "example.com" "a.example.com") = 1 ∧
    record_new (record_new [] "example.com" "a.example.com" none 0)
        "example.com" "a.example.com" (some "2024-01-01") 5
      = touchRow (record_new [] "example.com" "a.example.com" none 0)
        "example.com" "a.example.com" 5 :=
  ⟨(C3_record_new_insert_or_touch [] "example.com" "a.example.com" none
      (some "2024-01-01") 0 5 (by decide)).1,
   (C3_record_new_insert_or_touch [] "example.com" "a.example.com" none
      (some "2024-01-01") 0 5 (by decide)).2.2.2.1⟩

/-- The migration loop of `init_database` re-inserts every old row under
the default domain, in order, when the old subdomains are distinct. -/
theorem migrate_foldlM (d0 : String) :
    ∀ (rows : List OldRow) (acc : List MRow),
      (∀ r ∈ rows, ∀ q ∈ acc, q.subdomain ≠ r.subdomain) →
      (rows.map OldRow.subdomain).Nodup →
      rows.foldlM
          (fun acc r => minsertRow acc ⟨d0, r.subdomain, r.firstSeen, r.lastSeen⟩) acc
        = .ok (acc ++ rows.map fun r => ⟨d0, r.subdomain, r.firstSeen, r.lastSeen⟩) := by
  intro rows
  induction rows with
  | nil => intro acc _ _; simp; rfl
  | cons r rest ih =>
    intro acc hdisj hnd
    have hins : minsertRow acc ⟨d0, r.subdomain, r.firstSeen, r.lastSeen⟩
        = .ok (acc ++ [⟨d0, r.subdomain, r.firstSeen, r.lastSeen⟩]) := by
      simp only [minsertRow]
      rw [if_neg]
      intro hc
      rw [List.any_eq_true] at hc
      obtain ⟨q, hq, hqm⟩ := hc
      rw [Bool.and_eq_true, decide_eq_true_eq, decide_eq_true_eq] at hqm
      exact hdisj r (List.mem_cons_self r rest) q hq hqm.2
    rw [List.foldlM_cons, hins]
    have hrec := ih (acc ++ [⟨d0, r.subdomain, r.firstSeen, r.lastSeen⟩])
      (by
        intro r' hr' q hq
        rcases List.mem_append.mp hq with hqa | hqn
        · exact hdisj r' (List.mem_cons_of_mem r hr') q hqa
        · rw [List.mem_singleton.mp hqn]
          show r.subdomain ≠ r'.subdomain
          have hns : r.subdomain ∉ rest.map OldRow.subdomain := by
            have : (r.subdomain :: rest.map OldRow.subdomain).Nodup := hnd
            exact (List.nodup_cons.mp this).1
          intro hcontra
          exact hns (hcontra ▸ List.mem_map.mpr ⟨r', hr', rfl⟩))
      (by
        have : (r.subdomain :: rest.map OldRow.subdomain).Nodup := hnd
        exact (List.nodup_cons.mp this).2)
    show rest.foldlM
        (fun acc r => minsertRow acc ⟨d0, r.subdomain, r.firstSeen, r.lastSeen⟩)
        (acc ++ [⟨d0, r.subdomain, r.firstSeen, r.lastSeen⟩]) = _
    rw [hrec]
    simp

/-- Claim C8: migrating a pre-existing single-domain store preserves every
row, attributed to the first configured domain with `first_seen` and
`last_seen` retained; the migrated table then accepts rows for other
domains without a uniqueness collision; and initialization is idempotent
on an already-migrated store, including `subdomain2.py`'s variant that
adds the missing `release_date` column while preserving all rows. -/
theorem C8_migration :
    ∀ (rows : List OldRow) (d0 : String) (ds : List String) (mrows : List MRow)
      (rrows : List Row),
      (rows.map OldRow.subdomain).Nodup →
      init_database (d0 :: ds) (.oldSchema rows)
        = .ok (.newSchema (rows.map fun r => ⟨d0, r.subdomain, r.firstSeen, r.lastSeen⟩)) ∧
      (∀ (tbl : List MRow) (row : MRow), (∀ q ∈ tbl, q.domain = d0) → row.domain ≠ d0 →
        minsertRow tbl row = .ok (tbl ++ [row])) ∧
      init_database (d0 :: ds) (.newSchema mrows) = .ok (.newSchema mrows) ∧
      init_database2 (.noRelCol mrows)
        = .withRelCol (mrows.map fun r =>
            ⟨r.domain, r.subdomain, r.firstSeen, r.lastSeen, none⟩) ∧
      init_database2 (.withRelCol rrows) = .withRelCol rrows ∧
      init_database2 (init_database2 (.noRelCol mrows))
        = init_database2 (.noRelCol mrows) := by
  intro rows d0 ds mrows rrows hnd
  refine ⟨?_, ?_, rfl, rfl, rfl, rfl⟩
  · cases rows with
    | nil => rfl
    | cons r rest =>
      show ((r :: rest).foldlM
          (fun acc q => minsertRow acc ⟨d0, q.subdomain, q.firstSeen, q.lastSeen⟩)
          []).map MDb.newSchema = _
      rw [migrate_foldlM d0 (r :: rest) [] (by intro _ _ q hq; simp at hq) hnd]
      rfl
  · intro tbl row hall hne
    simp only [minsertRow]
    rw [if_neg]
    intro hc
    rw [List.any_eq_true] at hc
    obtain ⟨q, hq, hqm⟩ := hc
    rw [Bool.and_eq_true, decide_eq_true_eq, decide_eq_true_eq] at hqm
    exact hne (hqm.1 ▸ hall q hq)

/-- Witness for C8 on a one-row legacy store. -/
theorem C8_migration_witness :
    init_database ["new.com"] (.oldSchema [⟨"sub.old.com", 1, 2⟩])
      = .ok (.newSchema [⟨"new.com", "sub.old.com", 1, 2⟩]) ∧
    minsertRow [⟨"new.com", "sub.old.com", 1, 2⟩] ⟨"other.com", "s.other.com", 3, 3⟩
      = .ok [⟨"new.com", "sub.old.com", 1, 2⟩, ⟨"other.com", "s.other.com", 3, 3⟩] :=
  ⟨(C8_migration [⟨"sub.old.com", 1, 2⟩] "new.com" [] [] [] (by decide)).1,
   (C8_migration [⟨"sub.old.com", 1, 2⟩] "new.com" [] [] [] (by decide)).2.1
     [⟨"new.com", "sub.old.com", 1, 2⟩] ⟨"other.com", "s.other.com", 3, 3⟩
     (by decide) (by decide)⟩

/-- Counterexample to claim C6 as stated: the code's
`replace('*.', '')` removes every wildcard marker, not only a leading
label.  On raw name `*.*.example.com` the claim's normalization (strip
one leading `*.`) yields `*.example.com`, a strict subdomain, hence
acceptance; the code collapses the name to the bare `example.com` and
rejects it. -/
theorem C6_counterexample :
    specNormalize "example.com" "*.*.example.com" = some "*.example.com" ∧
    cleanCandidate "example.com" "*.*.example.com" = none :=
  ⟨by decide, by decide⟩

/-- Claim C6, amended: normalization trims whitespace, lowercases, and
removes EVERY occurrence of the wildcard marker `*.` (not only a leading
label); a candidate is accepted exactly when the trimmed lowercased name
is non-empty, contains the domain as a substring, and the wildcard-free
result ends with `.` + domain.  Every accepted hostname is a strict
subdomain (it ends with `.` + domain and is never the bare domain), and
the claim's concrete instances hold: `*.Foo.Example.com` normalizes to
the accepted `foo.example.com`, while the bare `example.com` is
rejected. -/
theorem C6_normalization :
    (∀ domain raw, cleanCandidate domain raw = specNormalizeAll domain raw) ∧
    (∀ domain raw hst, cleanCandidate domain raw = some hst →
      pyEndsWith hst ("." ++ domain) = true ∧ hst ≠ domain) ∧
    cleanCandidate "example.com" "*.Foo.Example.com" = some "foo.example.com" ∧
    cleanCandidate "example.com" "example.com" = none := by
  have hsome : ∀ domain raw hst, cleanCandidate domain raw = some hst →
      hst = stripWild (pyLower (pyStrip raw)) ∧
      pyEndsWith hst ("." ++ domain) = true := by
    intro domain raw hst h
    simp only [cleanCandidate] at h
    by_cases h1 : (decide (pyLower (pyStrip raw) ≠ "")
        && pyContains (pyLower (pyStrip raw)) domain) = true
    · rw [if_pos h1] at h
      by_cases h3 : pyEndsWith (stripWild (pyLower (pyStrip raw))) ("." ++ domain) = true
      · rw [if_pos h3] at h
        have : hst = stripWild (pyLower (pyStrip raw)) := (Option.some.inj h).symm
        exact ⟨this, this ▸ h3⟩
      · rw [if_neg h3] at h
        exact absurd h (by simp)
    · rw [if_neg h1] at h
      exact absurd h (by simp)
  refine ⟨?_, ?_, by decide, by decide⟩
  · intro domain raw
    by_cases h1 : pyLower (pyStrip raw) = "" <;>
      by_cases h2 : pyContains (pyLower (pyStrip raw)) domain = true <;>
        by_cases h3 : pyEndsWith (stripWild (pyLower (pyStrip raw))) ("." ++ domain) = true <;>
          simp [cleanCandidate, specNormalizeAll, h1, h2, h3]
  · intro domain raw hst h
    obtain ⟨-, hend⟩ := hsome domain raw hst h
    refine ⟨hend, ?_⟩
    intro hcontra
    rw [hcontra] at hend
    have hsuf : (".".data ++ domain.data) <:+ domain.data := by
      simp only [pyEndsWith, String.data_append] at hend
      exact List.isSuffixOf_iff_suffix.mp hend
    have hlen := hsuf.length_le
    simp only [List.length_append] at hlen
    have h1 : (".".data).length = 1 := rfl
    rw [h1] at hlen
    omega

/-- Witness for C6 (amended) at the claim's concrete instance. -/
theorem C6_normalization_witness :
    pyEndsWith "foo.example.com" ("." ++ "example.com") = true ∧
    "foo.example.com" ≠ "example.com" :=
  C6_normalization.2.1 "example.com" "*.Foo.Example.com" "foo.example.com" (by decide)

/-!
### Order facts about the modelled Python string comparison
-/

theorem charLt_iff {c d : Char} : charLt c d = true ↔ c.toNat < d.toNat := by
  simp [charLt]

theorem charLt_irrefl (c : Char) : charLt c c = false := by
  rw [Bool.eq_false_iff]
  intro h
  exact Nat.lt_irrefl _ (charLt_iff.mp h)

theorem charLt_asymm {c d : Char} (h : charLt c d = true) : charLt d c = false := by
  rw [Bool.eq_false_iff]
  intro h2
  exact Nat.lt_irrefl _ (Nat.lt_trans (charLt_iff.mp h) (charLt_iff.mp h2))

theorem charLt_trans {c d e : Char} (h1 : charLt c d = true) (h2 : charLt d e = true) :
    charLt c e = true :=
  charLt_iff.mpr (Nat.lt_trans (charLt_iff.mp h1) (charLt_iff.mp h2))

theorem charLt_conn {c d : Char} (h1 : charLt c d = false) (h2 : charLt d c = false) :
    c = d := by
  rw [Bool.eq_false_iff] at h1 h2
  have e1 : ¬ c.toNat < d.toNat := fun hc => h1 (charLt_iff.mpr hc)
  have e2 : ¬ d.toNat < c.toNat := fun hc => h2 (charLt_iff.mpr hc)
  have : c.toNat = d.toNat := Nat.le_antisymm (Nat.le_of_not_lt e2) (Nat.le_of_not_lt e1)
  calc c = Char.ofNat c.toNat := (Char.ofNat_toNat c).symm
    _ = Char.ofNat d.toNat := by rw [this]
    _ = d := Char.ofNat_toNat d

theorem lexLt_nil_right : ∀ a : List Char, lexLt a [] = false := by
  intro a
  cases a <;> rfl

theorem lexLt_asymm : ∀ a b : List Char, lexLt a b = true → lexLt b a = false := by
  intro a
  induction a with
  | nil =>
    intro b _
    exact lexLt_nil_right b
  | cons x xs ih =>
    intro b hab
    cases b with
    | nil => rw [lexLt_nil_right] at hab; exact absurd hab (by simp)
    | cons y ys =>
      simp only [lexLt] at hab ⊢
      by_cases hxy : charLt x y = true
      · rw [if_neg (by rw [charLt_asymm hxy]; simp), if_pos hxy]
      · rw [if_neg hxy] at hab
        by_cases hyx : charLt y x = true
        · rw [if_pos hyx] at hab; exact absurd hab (by simp)
        · rw [if_neg hyx] at hab
          rw [if_neg hyx, if_neg hxy]
          exact ih ys hab

theorem lexLt_conn : ∀ a b : List Char, lexLt a b = false → lexLt b a = false → a = b := by
  intro a
  induction a with
  | nil =>
    intro b hab _
    cases b with
    | nil => rfl
    | cons y ys => exact absurd hab (by simp [lexLt])
  | cons x xs ih =>
    intro b hab hba
    cases b with
    | nil => exact absurd hba (by simp [lexLt])
    | cons y ys =>
      simp only [lexLt] at hab hba
      by_cases hxy : charLt x y = true
      · rw [if_pos hxy] at hab; exact absurd hab (by simp)
      · by_cases hyx : charLt y x = true
        · rw [if_pos hyx] at hba; exact absurd hba (by simp)
        · rw [if_neg hxy, if_neg hyx] at hab
          rw [if_neg hyx, if_neg hxy] at hba
          have hch : x = y := charLt_conn (Bool.eq_false_iff.mpr hxy) (Bool.eq_false_iff.mpr hyx)
          rw [hch, ih ys hab hba]

theorem lexLt_trans : ∀ a b c : List Char,
    lexLt a b = true → lexLt b c = true → lexLt a c = true := by
  intro a
  induction a with
  | nil =>
    intro b c hab hbc
    cases b with
    | nil => exact absurd hab (by simp [lexLt])
    | cons y ys =>
      cases c with
      | nil => rw [lexLt_nil_right] at hbc; exact absurd hbc (by simp)
      | cons z zs => rfl
  | cons x xs ih =>
    intro b c hab hbc
    cases b with
    | nil => exact absurd hab (by simp [lexLt])
    | cons y ys =>
      cases c with
      | nil => rw [lexLt_nil_right] at hbc; exact absurd hbc (by simp)
      | cons z zs =>
        simp only [lexLt] at hab hbc ⊢
        by_cases hxy : charLt x y = true
        · by_cases hyz : charLt y z = true
          · rw [if_pos (charLt_trans hxy hyz)]
          · by_cases hzy : charLt z y = true
            · rw [if_neg hyz, if_pos hzy] at hbc; exact absurd hbc (by simp)
            · have : y = z := charLt_conn (Bool.eq_false_iff.mpr hyz) (Bool.eq_false_iff.mpr hzy)
              rw [if_pos (this ▸ hxy)]
        · rw [if_neg hxy] at hab
          by_cases hyx : charLt y x = true
          · rw [if_pos hyx] at hab; exact absurd hab (by simp)
          · rw [if_neg hyx] at hab
            have hxy' : x = y := charLt_conn (Bool.eq_false_iff.mpr hxy) (Bool.eq_false_iff.mpr hyx)
            by_cases hyz : charLt y z = true
            · rw [if_pos (hxy' ▸ hyz)]
            · by_cases hzy : charLt z y = true
              · rw [if_neg hyz, if_pos hzy] at hbc; exact absurd hbc (by simp)
              · rw [if_neg hyz, if_neg hzy] at hbc
                have hyz' : y = z := charLt_conn (Bool.eq_false_iff.mpr hyz) (Bool.eq_false_iff.mpr hzy)
                rw [hxy', hyz']
                rw [if_neg (Bool.eq_false_iff.mp (charLt_irrefl z)),
                  if_neg (Bool.eq_false_iff.mp (charLt_irrefl z))]
                exact ih ys zs hab hbc

/-- Strings with equal character data are equal. -/
theorem str_data_inj {a b : String} (h : a.data = b.data) : a = b :=
  congrArg String.mk h

theorem pyStrLt_asymm {a b : String} (h : pyStrLt a b = true) : pyStrLt b a = false :=
  lexLt_asymm a.data b.data h

theorem pyStrLt_conn {a b : String} (h1 : pyStrLt a b = false) (h2 : pyStrLt b a = false) :
    a = b :=
  str_data_inj (lexLt_conn a.data b.data h1 h2)

theorem pyStrLe_refl (a : String) : pyStrLe a a = true := by
  simp only [pyStrLe, pyStrLt, Bool.not_eq_true']
  rw [Bool.eq_false_iff]
  intro h
  have := lexLt_asymm a.data a.data h
  rw [this] at h
  exact absurd h (by simp)

theorem pyStrLe_total (a b : String) : pyStrLe a b = true ∨ pyStrLe b a = true := by
  simp only [pyStrLe, Bool.not_eq_true']
  by_cases h : pyStrLt b a = true
  · exact Or.inr (pyStrLt_asymm h)
  · exact Or.inl (Bool.eq_false_iff.mpr h)

theorem pyStrLe_trans {a b c : String} (h1 : pyStrLe a b = true) (h2 : pyStrLe b c = true) :
    pyStrLe a c = true := by
  simp only [pyStrLe, Bool.not_eq_true'] at h1 h2 ⊢
  rw [Bool.eq_false_iff]
  intro hca
  by_cases hab : pyStrLt a b = true
  · have hcb : pyStrLt c b = true := lexLt_trans c.data a.data b.data hca hab
    rw [h2] at hcb
    exact absurd hcb (by simp)
  · have hba : a = b := pyStrLt_conn (Bool.eq_false_iff.mpr hab) h1
    rw [hba] at hca
    rw [h2] at hca
    exact absurd hca (by simp)

theorem pyStrLt_of_le_of_ne {a b : String} (h1 : pyStrLe a b = true) (h2 : a ≠ b) :
    pyStrLt a b = true := by
  by_cases h : pyStrLt a b = true
  · exact h
  · simp only [pyStrLe, Bool.not_eq_true'] at h1
    exact absurd (pyStrLt_conn (Bool.eq_false_iff.mpr h) h1) h2

/-- No string is below the empty string: an empty stored timestamp is
never replaced. -/
theorem pyStrLt_empty_right (a : String) : pyStrLt a "" = false :=
  lexLt_nil_right a.data

/-- Counterexample to claim C4 as stated: the renderers sort only by the
date key (`sorted(new_subdomains, key=...)`), so hostnames with equal
dates keep the set's iteration order, which is unspecified — they are NOT
tie-broken by hostname lexical order.  With equal dates for
`a.example.com` and `b.example.com` and iteration order [b, a], the
rendered order is [b, a], not the lexical [a, b]. -/
theorem C4_counterexample :
    alertOrder [("a.example.com", "2024-01-01"), ("b.example.com", "2024-01-01")]
        ["b.example.com", "a.example.com"]
      = ["b.example.com", "a.example.com"] ∧
    ["b.example.com", "a.example.com"] ≠ ["a.example.com", "b.example.com"] :=
  ⟨by decide, by decide⟩

/-- Claim C4, amended: the rendered list contains every new hostname
exactly once (it is a permutation of the set), in ascending order of
date-hint value with hostnames absent from the hints sorted last (the
sentinel key); ties between equal date keys keep the set's unspecified
iteration order (Python's `sorted` is stable) rather than hostname
lexical order.  The claim's concrete instance {b ↦ 2024-02-01,
a ↦ 2024-01-01, c ↦ no date} renders a, b, c for every iteration
order, since its three date keys are distinct. -/
theorem C4_alert_order :
    (∀ (hints : List (String × String)) (iterOrder : List String),
        (alertOrder hints iterOrder).Perm iterOrder ∧
        List.Sorted (fun a b => pyStrLe (dateKey hints a) (dateKey hints b) = true)
          (alertOrder hints iterOrder)) ∧
    (∀ iterOrder : List String,
        iterOrder.Perm ["a.example.com", "b.example.com", "c.example.com"] →
        alertOrder [("b.example.com", "2024-02-01"), ("a.example.com", "2024-01-01")]
            iterOrder
          = ["a.example.com", "b.example.com", "c.example.com"]) := by
  have hkey : ∀ (hints : List (String × String)) (iterOrder : List String),
      (alertOrder hints iterOrder).Perm iterOrder ∧
      List.Sorted (fun a b => pyStrLe (dateKey hints a) (dateKey hints b) = true)
        (alertOrder hints iterOrder) := by
    intro hints iterOrder
    haveI : IsTotal String
        (fun a b => pyStrLe (dateKey hints a) (dateKey hints b) = true) :=
      ⟨fun a b => pyStrLe_total _ _⟩
    haveI : IsTrans String
        (fun a b => pyStrLe (dateKey hints a) (dateKey hints b) = true) :=
      ⟨fun _ _ _ => pyStrLe_trans⟩
    exact ⟨List.perm_insertionSort _ _, List.sorted_insertionSort _ _⟩
  refine ⟨hkey, ?_⟩
  intro iterOrder hperm
  haveI : IsAntisymm String
      (fun a b =>
        pyStrLt (dateKey [("b.example.com", "2024-02-01"), ("a.example.com", "2024-01-01")] a)
          (dateKey [("b.example.com", "2024-02-01"), ("a.example.com", "2024-01-01")] b)
          = true) := by
    constructor
    intro a b h1 h2
    rw [pyStrLt_asymm h1] at h2
    exact absurd h2 (by simp)
  have hres_perm : (alertOrder
      [("b.example.com", "2024-02-01"), ("a.example.com", "2024-01-01")] iterOrder).Perm
      ["a.example.com", "b.example.com", "c.example.com"] :=
    (hkey _ iterOrder).1.trans hperm
  have htargetkeys : ((["a.example.com", "b.example.com", "c.example.com"] : List String).map
      (dateKey [("b.example.com", "2024-02-01"), ("a.example.com", "2024-01-01")])).Nodup := by
    decide
  have hreskeys : ((alertOrder
      [("b.example.com", "2024-02-01"), ("a.example.com", "2024-01-01")] iterOrder).map
      (dateKey [("b.example.com", "2024-02-01"), ("a.example.com", "2024-01-01")])).Nodup :=
    (List.Perm.nodup_iff (hres_perm.map _)).mpr htargetkeys
  have hne : (alertOrder
      [("b.example.com", "2024-02-01"), ("a.example.com", "2024-01-01")] iterOrder).Pairwise
      (fun a b =>
        dateKey [("b.example.com", "2024-02-01"), ("a.example.com", "2024-01-01")] a
          ≠ dateKey [("b.example.com", "2024-02-01"), ("a.example.com", "2024-01-01")] b) :=
    List.pairwise_map.mp hreskeys
  have hsorted_lt : List.Pairwise
      (fun a b =>
        pyStrLt (dateKey [("b.example.com", "2024-02-01"), ("a.example.com", "2024-01-01")] a)
          (dateKey [("b.example.com", "2024-02-01"), ("a.example.com", "2024-01-01")] b)
          = true)
      (alertOrder [("b.example.com", "2024-02-01"), ("a.example.com", "2024-01-01")]
        iterOrder) := by
    have := ((hkey _ iterOrder).2.and hne)
    exact this.imp fun hab => pyStrLt_of_le_of_ne hab.1 hab.2
  have htarget_sorted : List.Pairwise
      (fun a b =>
        pyStrLt (dateKey [("b.example.com", "2024-02-01"), ("a.example.com", "2024-01-01")] a)
          (dateKey [("b.example.com", "2024-02-01"), ("a.example.com", "2024-01-01")] b)
          = true)
      ["a.example.com", "b.example.com", "c.example.com"] := by
    simp only [List.pairwise_cons, List.mem_cons, List.not_mem_nil]
    refine ⟨?_, ?_, ?_⟩
    · intro b hb
      rcases hb with hb | hb | hb
      · rw [hb]; decide
      · rw [hb]; decide
      · exact absurd hb (by simp)
    · intro b hb
      rcases hb with hb | hb
      · rw [hb]; decide
      · exact absurd hb (by simp)
    · simp
  exact List.eq_of_perm_of_sorted hres_perm hsorted_lt htarget_sorted

/-- Witness for C4 (amended) at the lexical iteration order. -/
theorem C4_alert_order_witness :
    alertOrder [("b.example.com", "2024-02-01"), ("a.example.com", "2024-01-01")]
        ["a.example.com", "b.example.com", "c.example.com"]
      = ["a.example.com", "b.example.com", "c.example.com"] :=
  C4_alert_order.2 ["a.example.com", "b.example.com", "c.example.com"] (List.Perm.refl _)

/-!
### Lookup behaviour of the crt.sh dictionary build
-/

theorem pyStrLe_of_lt {a b : String} (h : pyStrLt a b = true) : pyStrLe a b = true := by
  simp only [pyStrLe]
  rw [pyStrLt_asymm h]
  rfl

theorem pyStrLe_of_not_lt {a b : String} (h : pyStrLt b a = false) : pyStrLe a b = true := by
  simp only [pyStrLe]
  rw [h]
  rfl

theorem lookup_append_single {acc : List (String × String)} {h t : String}
    (hnone : acc.lookup h = none) : (acc ++ [(h, t)]).lookup h = some t := by
  induction acc with
  | nil => simp [List.lookup]
  | cons p rest ih =>
    obtain ⟨k, v⟩ := p
    by_cases hk : h == k
    · simp [List.lookup, hk] at hnone
    · simp only [List.cons_append, List.lookup, hk]
      exact ih (by simpa [List.lookup, hk] using hnone)

theorem lookup_append_single_ne {acc : List (String × String)} {h k t : String}
    (hne : k ≠ h) : (acc ++ [(k, t)]).lookup h = acc.lookup h := by
  have hb : (h == k) = false := beq_eq_false_iff_ne.mpr fun hc => hne hc.symm
  induction acc with
  | nil => simp [List.lookup, hb]
  | cons p rest ih =>
    obtain ⟨k', v'⟩ := p
    by_cases hk : h == k'
    · simp [List.lookup, hk]
    · simp only [List.cons_append, List.lookup, hk]
      exact ih

theorem lookup_map_update {h t : String} :
    ∀ {acc : List (String × String)} {cur : String}, acc.lookup h = some cur →
      ((acc.map fun q => if q.1 = h then (h, t) else q).lookup h) = some t := by
  intro acc
  induction acc with
  | nil => intro cur hc; simp [List.lookup] at hc
  | cons p rest ih =>
    intro cur hsome
    obtain ⟨k, v⟩ := p
    by_cases hk : k = h
    · subst hk
      rw [show (List.map (fun q => if q.1 = k then (k, t) else q) ((k, v) :: rest))
          = (k, t) :: List.map (fun q => if q.1 = k then (k, t) else q) rest from by
        rw [List.map_cons, if_pos rfl]]
      simp [List.lookup]
    · have hb : (h == k) = false := beq_eq_false_iff_ne.mpr fun hc => hk hc.symm
      simp only [List.map_cons, if_neg (show ¬((k, v).1 = h) from hk)]
      simp only [List.lookup, hb]
      simp only [List.lookup, hb] at hsome
      exact ih hsome

theorem lookup_map_update_ne {h k t : String} (hne : k ≠ h) :
    ∀ {acc : List (String × String)},
      ((acc.map fun q => if q.1 = k then (k, t) else q).lookup h) = acc.lookup h := by
  intro acc
  induction acc with
  | nil => rfl
  | cons p rest ih =>
    obtain ⟨k', v'⟩ := p
    by_cases hk : k' = k
    · subst hk
      simp only [List.map_cons, if_pos rfl]
      have hb : (h == k') = false := beq_eq_false_iff_ne.mpr (fun hc => hne hc.symm)
      simp only [List.lookup, hb]
      exact ih
    · simp only [List.map_cons, if_neg (by simpa using hk)]
      by_cases hhk : h == k'
      · simp [List.lookup, hhk]
      · simp only [List.lookup, hhk]
        exact ih

/-- The stored value at the updated key after one `updateOne` step. -/
theorem lookup_updateOne_self {acc : List (String × String)} {h t : String} :
    (updateOne acc h t).lookup h
      = some (match acc.lookup h with
          | none => t
          | some cur => if t ≠ "" ∧ pyStrLt t cur = true then t else cur) := by
  rcases hl : acc.lookup h with - | cur
  · simp only [updateOne, hl]
    exact lookup_append_single hl
  · simp only [updateOne, hl]
    by_cases hc : t ≠ "" ∧ pyStrLt t cur = true
    · rw [if_pos hc, if_pos hc]
      exact lookup_map_update hl
    · rw [if_neg hc, if_neg hc]
      exact hl

/-- `updateOne` at one key does not change any other key. -/
theorem lookup_updateOne_ne {acc : List (String × String)} {h k t : String}
    (hne : k ≠ h) : (updateOne acc k t).lookup h = acc.lookup h := by
  rcases hl : acc.lookup k with - | cur
  · simp only [updateOne, hl]
    exact lookup_append_single_ne hne
  · simp only [updateOne, hl]
    by_cases hc : t ≠ "" ∧ pyStrLt t cur = true
    · rw [if_pos hc]
      exact lookup_map_update_ne hne
    · rw [if_neg hc]

/-- The dictionary build is, at each fixed key, exactly the `runMin`
recurrence over that key's timestamps. -/
theorem foldl_lookup (h : String) :
    ∀ (pairs : List (String × String)) (acc : List (String × String)),
      ((pairs.foldl (fun acc p => updateOne acc p.1 p.2) acc).lookup h)
        = runMin (acc.lookup h)
            (pairs.filterMap fun p => if p.1 = h then some p.2 else none) := by
  intro pairs
  induction pairs with
  | nil => intro acc; rfl
  | cons p rest ih =>
    intro acc
    obtain ⟨k, t⟩ := p
    by_cases hk : k = h
    · subst hk
      have hfm : (List.filterMap (fun p => if p.1 = k then some p.2 else none)
            ((k, t) :: rest))
          = t :: List.filterMap (fun p => if p.1 = k then some p.2 else none) rest := by
        simp
      rw [List.foldl_cons, ih (updateOne acc k t), lookup_updateOne_self, hfm]
      rfl
    · have hfm : (List.filterMap (fun p => if p.1 = h then some p.2 else none)
            ((k, t) :: rest))
          = List.filterMap (fun p => if p.1 = h then some p.2 else none) rest := by
        simp [hk]
      rw [List.foldl_cons, ih (updateOne acc k t), lookup_updateOne_ne hk, hfm]

/-- An empty stored timestamp is never replaced. -/
theorem runMin_empty : ∀ (ts : List String), runMin (some "") ts = some "" := by
  intro ts
  induction ts with
  | nil => rfl
  | cons t rest ih =>
    simp only [runMin]
    rw [if_neg (fun hc : t ≠ "" ∧ pyStrLt t "" = true =>
      by rw [pyStrLt_empty_right t] at hc; exact absurd hc.2 (by simp))]
    exact ih

/-- With only non-empty candidate timestamps, `runMin` computes the
minimum of the stored value and the candidates. -/
theorem runMin_min :
    ∀ (ts : List String) (v : String), (∀ t ∈ ts, t ≠ "") →
      ∃ m, runMin (some v) ts = some m ∧ (m = v ∨ m ∈ ts) ∧ pyStrLe m v = true ∧
        ∀ t ∈ ts, pyStrLe m t = true := by
  intro ts
  induction ts with
  | nil =>
    intro v _
    exact ⟨v, rfl, Or.inl rfl, pyStrLe_refl v, by simp⟩
  | cons t rest ih =>
    intro v hne
    by_cases hc : t ≠ "" ∧ pyStrLt t v = true
    · obtain ⟨m, hrun, hmem, hle, hall⟩ := ih t (fun x hx => hne x (List.mem_cons_of_mem t hx))
      refine ⟨m, ?_, ?_, ?_, ?_⟩
      · simp only [runMin]
        rw [if_pos hc]
        exact hrun
      · rcases hmem with hm | hm
        · exact Or.inr (hm ▸ List.mem_cons_self t rest)
        · exact Or.inr (List.mem_cons_of_mem t hm)
      · exact pyStrLe_trans hle (pyStrLe_of_lt hc.2)
      · intro x hx
        rcases List.mem_cons.mp hx with hx | hx
        · exact hx ▸ hle
        · exact hall x hx
    · obtain ⟨m, hrun, hmem, hle, hall⟩ := ih v (fun x hx => hne x (List.mem_cons_of_mem t hx))
      have htne : t ≠ "" := hne t (List.mem_cons_self t rest)
      have hlt : pyStrLt t v = false := by
        rcases Bool.eq_false_or_eq_true (pyStrLt t v) with hf | htr
        · exact absurd ⟨htne, hf⟩ hc
        · exact htr
      refine ⟨m, ?_, ?_, hle, ?_⟩
      · simp only [runMin]
        rw [if_neg hc]
        exact hrun
      · rcases hmem with hm | hm
        · exact Or.inl hm
        · exact Or.inr (List.mem_cons_of_mem t hm)
      · intro x hx
        rcases List.mem_cons.mp hx with hx | hx
        · exact hx ▸ pyStrLe_trans hle (pyStrLe_of_not_lt hlt)
        · exact hall x hx

/-- Counterexample to claim C5 as stated: with log entries carrying
timestamps `''` then `2024-01-01` for the same hostname, the earliest
NON-EMPTY timestamp is `2024-01-01`, but the code stores `''` (an empty
first timestamp is never replaced, since no string is `<` the empty
string); swapping the two entries changes the result, so it is not
order-independent either. -/
theorem C5_counterexample :
    timesOf "example.com" "h.example.com"
        [("h.example.com", ""), ("h.example.com", "2024-01-01")]
      = ["", "2024-01-01"] ∧
    (processEntries "example.com"
        [("h.example.com", ""), ("h.example.com", "2024-01-01")]).lookup "h.example.com"
      = some "" ∧
    (processEntries "example.com"
        [("h.example.com", "2024-01-01"), ("h.example.com", "")]).lookup "h.example.com"
      = some "2024-01-01" ∧
    ("" : String) ≠ "2024-01-01" :=
  ⟨by decide, by decide, by decide, by decide⟩

/-- Claim C5, amended: when every timestamp attached to a hostname's
entries is non-empty, the fetched mapping assigns that hostname the
earliest such timestamp (a member of its timestamp list that is `<=`
all of them in the string order the code compares with), regardless of
entry order; but when the first entry mentioning the hostname carries an
empty timestamp, the mapping assigns the empty string — an empty first
timestamp is never replaced. -/
theorem C5_earliest_nonempty :
    ∀ (domain : String) (entries : List (String × String)) (h : String),
      ((∀ t ∈ timesOf domain h entries, t ≠ "") → timesOf domain h entries ≠ [] →
        ∃ m, (processEntries domain entries).lookup h = some m ∧
          m ∈ timesOf domain h entries ∧
          ∀ t ∈ timesOf domain h entries, pyStrLe m t = true) ∧
      (∀ ts, timesOf domain h entries = "" :: ts →
        (processEntries domain entries).lookup h = some "") := by
  intro domain entries h
  have hbase : (processEntries domain entries).lookup h
      = runMin none (timesOf domain h entries) := by
    simp only [processEntries, timesOf]
    exact foldl_lookup h (entryPairs domain entries) []
  constructor
  · intro hnonempty hne
    rcases hts : timesOf domain h entries with - | ⟨t0, rest⟩
    · exact absurd hts hne
    · have ht0 : t0 ≠ "" := hnonempty t0 (hts ▸ List.mem_cons_self t0 rest)
      obtain ⟨m, hrun, hmem, hlev, hall⟩ :=
        runMin_min rest t0 (fun x hx => hnonempty x (hts ▸ List.mem_cons_of_mem t0 hx))
      refine ⟨m, ?_, ?_, ?_⟩
      · rw [hbase, hts]
        simpa only [runMin] using hrun
      · rcases hmem with hm | hm
        · exact hm ▸ List.mem_cons_self t0 rest
        · exact List.mem_cons_of_mem t0 hm
      · intro t ht
        rcases List.mem_cons.mp ht with ht | ht
        · subst ht
          exact hlev
        · exact hall t ht
  · intro ts hts
    rw [hbase, hts]
    exact runMin_empty ts

/-- Witness for C5 (amended): two non-empty timestamps, later entry
earlier in time. -/
theorem C5_earliest_nonempty_witness :
    ∃ m, (processEntries "example.com"
        [("h.example.com", "2024-02-02"), ("h.example.com", "2024-01-01")]).lookup
        "h.example.com" = some m ∧
      m ∈ timesOf "example.com" "h.example.com"
        [("h.example.com", "2024-02-02"), ("h.example.com", "2024-01-01")] ∧
      ∀ t ∈ timesOf "example.com" "h.example.com"
          [("h.example.com", "2024-02-02"), ("h.example.com", "2024-01-01")],
        pyStrLe m t = true :=
  (C5_earliest_nonempty "example.com"
    [("h.example.com", "2024-02-02"), ("h.example.com", "2024-01-01")]
    "h.example.com").1 (by decide) (by decide)

end Subdomain
